import Mathlib

/-!
Verification of the terminal-browser core (`terminal_browser.c`):
a shallow embedding of its preprocessor, HTML tree builder, renderer
and viewport controller, with theorems settling the specified
properties.  Strings are modelled as `List Char` (the C code works on
NUL-terminated byte buffers of printable ASCII).
-/

namespace TermBrowser

/-- C `isspace` on ASCII bytes: space, tab, newline, vertical tab,
form feed, carriage return. -/
def isSpaceC (c : Char) : Bool :=
  c = ' ' || c = '\t' || c = '\n' || c = '\x0b' || c = '\x0c' || c = '\r'

/-- C `tolower` on ASCII. -/
def asciiLower (c : Char) : Char :=
  if 'A' ≤ c ∧ c ≤ 'Z' then Char.ofNat (c.toNat + 32) else c

/-- C `isalnum` on ASCII. -/
def isAlnumC (c : Char) : Bool :=
  ('a' ≤ c && c ≤ 'z') || ('A' ≤ c && c ≤ 'Z') || ('0' ≤ c && c ≤ '9')

/-- C `isdigit` on ASCII. -/
def isDigitC (c : Char) : Bool := '0' ≤ c && c ≤ '9'

/-! ## Whitespace collapsing (`parse_html_tree`, lines 419–431)

Outside `NODE_PRE`/`NODE_CODE`, a text chunk is rewritten in place:
`\r` is skipped; `\n` and `\t` are normalized to `' '` before the
`isspace` test (which is equivalent to testing `isspace` on the
original character, since both are whitespace and the emitted
character for a whitespace run is always `' '`); every maximal
whitespace run becomes one space; trailing spaces are then removed
(lines 430–431). -/

/-- The per-character loop of the collapsing pass.  The boolean is the
C `last_space` flag. -/
def collapseAux : List Char → Bool → List Char
  | [], _ => []
  | c :: cs, lastSpace =>
    if c = '\r' then collapseAux cs lastSpace
    else if isSpaceC c then
      if lastSpace then collapseAux cs true
      else ' ' :: collapseAux cs true
    else c :: collapseAux cs false

/-- `while(oi > 0 && out[oi-1] == ' ') oi--;` — strip trailing spaces. -/
def dropTrailingSpaces (l : List Char) : List Char :=
  (l.reverse.dropWhile (fun c => c = ' ')).reverse

/-- The whitespace-collapsing function applied to text chunks outside
`NODE_PRE`/`NODE_CODE` (`parse_html_tree`, lines 419–431). -/
def collapseWS (l : List Char) : List Char :=
  dropTrailingSpaces (collapseAux l false)

/-- Every whitespace character of `l` is a plain space. -/
def wsOnlySpace (l : List Char) : Bool :=
  l.all (fun c => !isSpaceC c || c = ' ')

/-- No two adjacent characters of `l` are both spaces. -/
def noTwoSpaces : List Char → Bool
  | c :: d :: rest => (!(c = ' ' && d = ' ')) && noTwoSpaces (d :: rest)
  | _ => true

/-- The head of `l` (if any) is not a space. -/
def headNotSpace : List Char → Bool
  | [] => true
  | c :: _ => !(c = ' ')

/-! ## Data model (`NodeType`, `Node`, `terminal_browser.c` lines 44–85)

Attributes are an ordered association list; children an ordered list.
The `parent` back-pointer and the mutable render state
(`expanded`, `list_number`) carry no information needed here. -/

inductive NodeType where
  | TEXT | BR | HR | DIV | HEADER | PARAGRAPH | PRE | CODE
  | BOLD | ITALIC | MARK | UNDER | STRIKE | BLOCKQUOTE
  | UL | OL | LI | DL | DT | DD
  | IMG | FIGURE | FIGCAP | DETAILS | SUMMARY
  | TABLE | TR | TD | TH | A
  | FORM | INPUT | TEXTAREA | SELECT | BUTTON
  | MAIN | HEADERBAR | FOOTER
  deriving DecidableEq, Repr

/-- A tree node: type, owned text (text nodes), attributes, children. -/
inductive Node where
  | mk (type : NodeType) (text : List Char)
       (attrs : List (List Char × List Char)) (children : List Node)

def Node.type : Node → NodeType | .mk t _ _ _ => t
def Node.text : Node → List Char | .mk _ s _ _ => s
def Node.attrs : Node → List (List Char × List Char) | .mk _ _ a _ => a
def Node.children : Node → List Node | .mk _ _ _ c => c

/-! ## Attribute parsing (`parse_attrs`, lines 157–184) -/

/-- Attribute-name characters: `isalnum(*p) || *p=='-' || *p==':'`. -/
def isAttrNameChar (c : Char) : Bool := isAlnumC c || c = '-' || c = ':'

/-- One iteration consumes at least one character or stops, so the
remaining length is a valid fuel. -/
def parseAttrsAux : Nat → List Char → List (List Char × List Char)
  | 0, _ => []
  | fuel + 1, s =>
    let p0 := s.dropWhile (fun c => isSpaceC c)
    if p0.isEmpty then []
    else
      let nameRun := p0.takeWhile isAttrNameChar
      let nc := min 127 nameRun.length
      let name := p0.take nc
      let p1 := p0.drop nc
      let p2 := p1.dropWhile (fun c => isSpaceC c)
      let p3 := if p2.head? = some '=' then p2.drop 1 else p2
      let p4 := p3.dropWhile (fun c => isSpaceC c)
      let (value, p5) :=
        match p4 with
        | q :: rest =>
          if q = '"' ∨ q = '\'' then
            let run := rest.takeWhile (fun c => ¬ (c = q))
            let vc := min 511 run.length
            let after := rest.drop vc
            (rest.take vc, if after.head? = some q then after.drop 1 else after)
          else
            let run := p4.takeWhile (fun c => ¬ isSpaceC c ∧ ¬ (c = '>'))
            let vc := min 511 run.length
            (p4.take vc, p4.drop vc)
        | [] => ([], [])
      if name.isEmpty then []
      else (name, value) :: parseAttrsAux fuel p5

/-- `parse_attrs`: quoted/unquoted attribute scanner. -/
def parse_attrs (s : List Char) : List (List Char × List Char) :=
  parseAttrsAux (s.length + 1) s

/-! ## Tree builder (`parse_html_tree`, lines 290–445)

The C keeps an explicit stack of pointers into the tree under
construction; new children are attached to the top-of-stack node as
they are created, and closing a tag just lowers the stack pointer.  The
embedding uses the equivalent spine (zipper) representation: the stack
is a list of open frames, head = top of stack, the synthetic root frame
last; a frame records the open element's type, attributes and the
children attached so far, and popping a frame attaches its finished
node to the frame below.  The resulting tree is identical. -/

structure Frame where
  type : NodeType
  attrs : List (List Char × List Char)
  children : List Node

def finalizeFrame (f : Frame) : Node := Node.mk f.type [] f.attrs f.children

/-- Merge the top frame into the frame below it (one pop). -/
def foldTopFrame : List Frame → List Frame
  | f :: g :: rest =>
    { g with children := g.children ++ [finalizeFrame f] } :: rest
  | l => l

def popFrames : Nat → List Frame → List Frame
  | 0, l => l
  | n + 1, l => popFrames n (foldTopFrame l)

/-- Which closing-tag names a stack node accepts — the `switch` at
lines 329–352.  `NODE_HEADER` accepts any closing name starting with
`'h'` (`tag[0]=='h'`); node types absent from the `switch` accept no
closing name at all. -/
def acceptsClose (t : NodeType) (tag : List Char) : Bool :=
  match t with
  | .DIV => tag = "div".data
  | .MAIN => tag = "main".data
  | .HEADERBAR => tag = "header".data
  | .FOOTER => tag = "footer".data
  | .HEADER => tag.head? = some 'h'
  | .PARAGRAPH => tag = "p".data
  | .PRE => tag = "pre".data
  | .CODE => tag = "code".data
  | .BLOCKQUOTE => tag = "blockquote".data || tag = "q".data
  | .UL => tag = "ul".data
  | .OL => tag = "ol".data
  | .LI => tag = "li".data
  | .TABLE => tag = "table".data
  | .TR => tag = "tr".data
  | .TD => tag = "td".data
  | .TH => tag = "th".data
  | .A => tag = "a".data
  | .DETAILS => tag = "details".data
  | .SUMMARY => tag = "summary".data
  | .FIGURE => tag = "figure".data
  | .FIGCAP => tag = "figcaption".data
  | _ => false

/-- Index, counted from the top of the stack, of the nearest open node
accepting the closing `tag`: the C loop runs `i` from `sp-1` down to
`1`, so the bottom (root) frame is never examined. -/
def findAcceptIdx (tag : List Char) : List Frame → Option Nat
  | [] => none
  | [_] => none
  | f :: g :: rest =>
    if acceptsClose f.type tag then some 0
    else (findAcceptIdx tag (g :: rest)).map (· + 1)

/-- Closing-tag handling (lines 324–354): search the stack from the
top toward the root — excluding the root itself (`i > 0`) — for the
nearest accepting node; pop down to and including it (`sp = i`), or do
nothing. -/
def closeTag (stack : List Frame) (tag : List Char) : List Frame :=
  match findAcceptIdx tag stack with
  | none => stack
  | some k => popFrames (k + 1) stack

/-- `<h?>` opening test: `tag[0]=='h' && isdigit(tag[1])` (line 361). -/
def headerOpen : List Char → Bool
  | c :: d :: _ => c = 'h' && isDigitC d
  | _ => false

/-- What an opening tag does: append a leaf under the top of stack, or
push a new container frame; the flag records whether the C branch calls
`parse_attrs`. -/
inductive OpenAction where
  | leaf (t : NodeType) (withAttrs : Bool)
  | push (t : NodeType) (withAttrs : Bool)
  deriving DecidableEq, Repr

/-- The opening-tag dispatch chain (lines 357–401), in source order;
the final `else` is the unknown-tag fallback: a transparent `NODE_DIV`
container. -/
def classify (tag : List Char) : OpenAction :=
  if tag = "br".data then .leaf .BR false
  else if tag = "hr".data then .leaf .HR false
  else if tag = "div".data then .push .DIV true
  else if tag = "main".data then .push .MAIN true
  else if headerOpen tag then .push .HEADER true
  else if tag = "p".data then .push .PARAGRAPH true
  else if tag = "pre".data then .push .PRE true
  else if tag = "code".data then .push .CODE true
  else if tag = "blockquote".data ∨ tag = "q".data then .push .BLOCKQUOTE true
  else if tag = "ul".data then .push .UL false
  else if tag = "ol".data then .push .OL true
  else if tag = "li".data then .push .LI false
  else if tag = "dl".data then .push .DL false
  else if tag = "dt".data then .push .DT false
  else if tag = "dd".data then .push .DD false
  else if tag = "figure".data then .push .FIGURE false
  else if tag = "figcaption".data then .push .FIGCAP false
  else if tag = "details".data then .push .DETAILS true
  else if tag = "summary".data then .push .SUMMARY false
  else if tag = "table".data then .push .TABLE false
  else if tag = "tr".data then .push .TR false
  else if tag = "td".data then .push .TD false
  else if tag = "th".data then .push .TH false
  else if tag = "a".data then .push .A true
  else if tag = "img".data then .leaf .IMG true
  else if tag = "form".data then .push .FORM true
  else if tag = "input".data then .leaf .INPUT true
  else if tag = "textarea".data then .push .TEXTAREA true
  else if tag = "select".data then .push .SELECT true
  else if tag = "button".data then .leaf .BUTTON true
  else if tag = "header".data then .push .HEADERBAR false
  else if tag = "footer".data then .push .FOOTER false
  else if tag = "strong".data ∨ tag = "b".data then .push .BOLD false
  else if tag = "em".data ∨ tag = "i".data ∨ tag = "cite".data ∨
          tag = "dfn".data ∨ tag = "address".data then .push .ITALIC false
  else if tag = "mark".data then .push .MARK false
  else if tag = "u".data ∨ tag = "ins".data ∨ tag = "abbr".data then
    .push .UNDER false
  else if tag = "del".data then .push .STRIKE false
  else if tag = "samp".data then .push .CODE false
  else .push .DIV true

/-- The recognized opening-tag names, as a plain set: every name tested
by a `strcmp` in the dispatch chain, plus the `h`+digit header rule. -/
def recognizedNames : List (List Char) :=
  ["br".data, "hr".data, "div".data, "main".data, "p".data, "pre".data,
   "code".data, "blockquote".data, "q".data, "ul".data, "ol".data,
   "li".data, "dl".data, "dt".data, "dd".data, "figure".data,
   "figcaption".data, "details".data, "summary".data, "table".data,
   "tr".data, "td".data, "th".data, "a".data, "img".data, "form".data,
   "input".data, "textarea".data, "select".data, "button".data,
   "header".data, "footer".data, "strong".data, "b".data, "em".data,
   "i".data, "cite".data, "dfn".data, "address".data, "mark".data,
   "u".data, "ins".data, "abbr".data, "del".data, "samp".data]

def recognizedTag (tag : List Char) : Bool :=
  decide (tag ∈ recognizedNames) || headerOpen tag

/-- Append a child node under the top-of-stack frame. -/
def appendChildTop : List Frame → Node → List Frame
  | [], _ => []
  | f :: rest, n => { f with children := f.children ++ [n] } :: rest

/-- Apply an opening tag to the stack (the non-closing branch,
lines 355–402). -/
def openApply (stack : List Frame) (tag attrsSub : List Char) : List Frame :=
  match classify tag with
  | .leaf t wa =>
    appendChildTop stack (Node.mk t [] (if wa then parse_attrs attrsSub else []) [])
  | .push t wa =>
    ⟨t, (if wa then parse_attrs attrsSub else []), []⟩ :: stack

/-- Append a text chunk under the top of stack (lines 405–439):
verbatim inside `NODE_PRE`/`NODE_CODE`, collapsed otherwise, and a
chunk that collapses to nothing is dropped. -/
def textAppend (stack : List Frame) (chunk : List Char) : List Frame :=
  match stack with
  | [] => []
  | f :: rest =>
    if f.type = .PRE ∨ f.type = .CODE then
      { f with children := f.children ++ [Node.mk .TEXT chunk [] []] } :: rest
    else
      let out := collapseWS chunk
      if 0 < out.length then
        { f with children := f.children ++ [Node.mk .TEXT out [] []] } :: rest
      else f :: rest

/-- `html[i]`, with the NUL terminator beyond the end. -/
def charAt (l : List Char) (i : Nat) : Char := l.getD i (Char.ofNat 0)

/-- First index `≥ start` whose character satisfies `p`. -/
def findIdxFrom (p : Char → Bool) (l : List Char) (start : Nat) : Option Nat :=
  ((l.drop start).findIdx? p).map (· + start)

/-- Does `pat` occur in `l` at position `j`? -/
def subAt (l pat : List Char) (j : Nat) : Bool :=
  decide ((l.drop j).take pat.length = pat)

/-- `strstr(l + start, pat)`, as an index into `l`. -/
def findSubFrom (l pat : List Char) (start : Nat) : Option Nat :=
  (List.range (l.length + 1)).find? (fun j => start ≤ j && subAt l pat j)

/-- The tree-builder loop state: scan position and open-frame stack. -/
structure PState where
  pos : Nat
  stack : List Frame

/-- Tag-name characters: `isalnum(*p) || *p == '-'` (line 319). -/
def isTagNameChar (c : Char) : Bool := isAlnumC c || c = '-'

/-- One iteration of the `while(pos < len)` loop of `parse_html_tree`.
`none` means the loop exits (end of input, or `break` on an
unterminated `<`).  `some s` with the state unchanged models an
iteration that made no progress. -/
def parseStep (html : List Char) (s : PState) : Option PState :=
  if s.pos < html.length then
    if charAt html s.pos = '<' then
      match findIdxFrom (fun c => c = '>') html (s.pos + 1) with
      | none => none
      | some gt =>
        let inside := (html.drop (s.pos + 1)).take (gt - (s.pos + 1))
        if inside.take 3 = "!--".data then
          match findSubFrom html "-->".data (s.pos + 4) with
          | some e => some ⟨e + 3, s.stack⟩
          | none => some s
        else
          let afterSp := inside.dropWhile (fun c => isSpaceC c)
          let closing := afterSp.head? = some '/'
          let rest0 := if closing then afterSp.drop 1 else afterSp
          let nameRun := rest0.takeWhile isTagNameChar
          let nc := min 63 nameRun.length
          let tag := (rest0.take nc).map asciiLower
          let attrsSub := (rest0.drop nc).take 511
          if closing then some ⟨gt + 1, closeTag s.stack tag⟩
          else some ⟨gt + 1, openApply s.stack tag attrsSub⟩
    else
      let stop := (findIdxFrom (fun c => c = '<') html s.pos).getD html.length
      some ⟨stop, textAppend s.stack ((html.drop s.pos).take (stop - s.pos))⟩
  else none

/-- Run the loop with the given fuel (each productive iteration
advances `pos`, so `length + 1` iterations suffice whenever the C loop
terminates). -/
def parseRun (html : List Char) : Nat → PState → PState
  | 0, s => s
  | fuel + 1, s =>
    match parseStep html s with
    | none => s
    | some s2 => parseRun html fuel s2

/-- Iterate the loop body, reporting `none` only if the loop exited. -/
def stepIter (html : List Char) : Nat → PState → Option PState
  | 0, s => some s
  | n + 1, s =>
    match parseStep html s with
    | none => none
    | some s2 => stepIter html n s2

/-- The synthetic root: `node_create(NODE_DIV)` (line 293). -/
def rootFrame : Frame := ⟨.DIV, [], []⟩

/-- Discarding the stack at end of input: every still-open frame's node
is already attached at its point of insertion; fold the spine down to
the root. -/
def finishFrames (f : Frame) : List Frame → Node
  | [] => finalizeFrame f
  | g :: rest =>
    finishFrames ({ g with children := g.children ++ [finalizeFrame f] }) rest

/-- `parse_html_tree`: build the tree for a sanitized input. -/
def parse_html_tree (html : List Char) : Node :=
  let fin := parseRun html (html.length + 1) ⟨0, [rootFrame]⟩
  match fin.stack with
  | [] => Node.mk .DIV [] [] []
  | f :: rest => finishFrames f rest

/-! ## Preprocessor (`sanitize_ascii_inplace`, `strip_script_style_meta`,
lines 252–287) -/

/-- Byte sanitization: bytes `≥ 128` become `'?'`; control bytes other
than `\n`, `\t`, `\r` become `' '`. -/
def sanitize_ascii (buf : List Char) : List Char :=
  buf.map (fun c =>
    if 128 ≤ c.toNat then '?'
    else if c.toNat < 32 ∧ ¬ (c = '\n') ∧ ¬ (c = '\t') ∧ ¬ (c = '\r') then ' '
    else c)

/-- Case-insensitive match of lowercase `pat` at position `j` of `l`
(`strncasecmp`). -/
def ciSubAt (l pat : List Char) (j : Nat) : Bool :=
  decide (((l.drop j).take pat.length).map asciiLower = pat)

/-- `strcasestr(l + start, pat)`, as an index into `l`. -/
def findCISubFrom (l pat : List Char) (start : Nat) : Option Nat :=
  (List.range (l.length + 1)).find? (fun j => start ≤ j && ciSubAt l pat j)

/-- The `for(i...)` loop of `strip_script_style_meta`.  On a found
`</script>` the C sets `i = end + 8 - 1` and `continue`s (so the next
iteration starts at `end + 8`, the closer's own `'>'`); likewise
`end + 7` for `</style>`.  With no close tag it `break`s, dropping the
rest.  `<meta`/`<link` skip to their `'>'`; with no `'>'` the `'<'`
falls through and is copied.  Every step advances `i`, so
`length + 1` fuel is enough. -/
def stripGo (src : List Char) : Nat → Nat → List Char → List Char
  | 0, _, acc => acc
  | fuel + 1, i, acc =>
    if i < src.length then
      if charAt src i = '<' ∧ i + 8 < src.length ∧
          (ciSubAt src "script".data (i + 1) ∨ ciSubAt src "/script".data (i + 1)) then
        match findCISubFrom src "</script>".data i with
        | some e => stripGo src fuel (e + 8) acc
        | none => acc
      else if charAt src i = '<' ∧ i + 7 < src.length ∧
          (ciSubAt src "style".data (i + 1) ∨ ciSubAt src "/style".data (i + 1)) then
        match findCISubFrom src "</style>".data i with
        | some e => stripGo src fuel (e + 7) acc
        | none => acc
      else if charAt src i = '<' ∧ i + 5 < src.length ∧
          (ciSubAt src "meta".data (i + 1) ∨ ciSubAt src "link".data (i + 1)) then
        match findIdxFrom (fun c => c = '>') src i with
        | some g => stripGo src fuel (g + 1) acc
        | none => stripGo src fuel (i + 1) (acc ++ [charAt src i])
      else stripGo src fuel (i + 1) (acc ++ [charAt src i])
    else acc

/-- `strip_script_style_meta`: elide script/style blocks and meta/link
tags. -/
def strip_script_style_meta (src : List Char) : List Char :=
  stripGo src (src.length + 1) 0 []

/-! ## Word wrap (`render_wrapped_text`, lines 462–497)

The embedding records each emitted ncurses write as a placement
`(column, characters)` on the current row of an unbounded canvas, so
the extent every write asks for is visible; rows are completed in
order.  The C `word[1024]` buffer drops characters beyond 1023
(`if(wi + 1 < sizeof(word))`). -/

structure WrapSt where
  rows : List (List (Nat × List Char))
  cur : List (Nat × List Char)
  curx : Nat
  word : List Char

/-- Flush the accumulated word (the `wi > 0` branch): wrap first when
`curx + wi >= g_term_w`, then place the word and advance. -/
def wrapFlushWord (w indent : Nat) (st : WrapSt) : WrapSt :=
  if st.word.length = 0 then st
  else
    let st1 := if w ≤ st.curx + st.word.length then
        { st with rows := st.rows ++ [st.cur], cur := [], curx := indent }
      else st
    { st1 with cur := st1.cur ++ [(st1.curx, st.word)],
               curx := st1.curx + st.word.length, word := [] }

/-- Place the inter-word space, or wrap when it does not fit. -/
def wrapSpace (w indent : Nat) (st : WrapSt) : WrapSt :=
  if w ≤ st.curx + 1 then
    { st with rows := st.rows ++ [st.cur], cur := [], curx := indent }
  else { st with cur := st.cur ++ [(st.curx, [' '])], curx := st.curx + 1 }

/-- One character of the scan loop (the `'\0'` step is the final
flush below). -/
def wrapChar (w indent : Nat) (st : WrapSt) (c : Char) : WrapSt :=
  if c = ' ' then wrapSpace w indent (wrapFlushWord w indent st)
  else { st with word := if st.word.length + 1 < 1024 then st.word ++ [c] else st.word }

/-- `render_wrapped_text` at width `w` and the given indent: the rows
it writes (the final `(*y)++` completes the last row). -/
def render_wrapped_text (w indent : Nat) (txt : List Char) :
    List (List (Nat × List Char)) :=
  let st := txt.foldl (wrapChar w indent) ⟨[], [], indent, []⟩
  let st2 := wrapFlushWord w indent st
  st2.rows ++ [st2.cur]

/-- Number of columns a row occupies: the furthest write end. -/
def rowExtent (row : List (Nat × List Char)) : Nat :=
  row.foldr (fun p acc => max (p.1 + p.2.length) acc) 0

/-- Lengths of the maximal `' '`-separated runs of `txt`, continuing a
run of `k` characters already accumulated. -/
def wordRuns : List Char → Nat → List Nat
  | [], k => if k = 0 then [] else [k]
  | c :: cs, k =>
    if c = ' ' then (if k = 0 then [] else [k]) ++ wordRuns cs 0
    else wordRuns cs (k + 1)

/-! ## Table renderer (`render_table_node`, lines 529–608) -/

/-- Concatenate a cell's direct `NODE_TEXT` children, space-joined
(`if(bl) buf[bl++]=' '`). -/
def cellJoinText (children : List Node) : List Char :=
  children.foldl (fun acc ch =>
    match ch with
    | Node.mk .TEXT txt _ _ => if acc.isEmpty then txt else acc ++ ' ' :: txt
    | _ => acc) []

def isCellType (t : NodeType) : Bool := t = .TD || t = .TH

/-- First pass: per-row joined cell strings; `NODE_TR` children with no
cells are skipped. -/
def tableRows (table : Node) : List (List (List Char)) :=
  table.children.foldl (fun acc r =>
    if r.type = .TR then
      let cs := r.children.filter (fun c => isCellType c.type)
      if cs.isEmpty then acc
      else acc ++ [cs.map (fun c => cellJoinText c.children)]
    else acc) []

/-- `cols`: the maximum cell count over rows. -/
def tableCols (rows : List (List (List Char))) : Nat :=
  rows.foldl (fun m r => max m r.length) 0

/-- `colw[c]`: starts at 1, grows to the longest cell text of column
`c`; a row without a cell at `c` contributes nothing. -/
def colWidth (rows : List (List (List Char))) (c : Nat) : Nat :=
  rows.foldl (fun mw r =>
    match r.get? c with
    | some cell => max mw cell.length
    | none => mw) 1

/-- A `+`/`-` border row: `+`, then per column `colw[c]+2` dashes and a
`+`. -/
def borderLine (rows : List (List (List Char))) (cols : Nat) : List Char :=
  '+' :: ((List.range cols).map (fun c =>
    List.replicate (colWidth rows c + 2) '-' ++ ['+'])).flatten

/-- `%-*s`: left-justified, space-padded to `w` (never truncated). -/
def padCell (cell : List Char) (w : Nat) : List Char :=
  cell ++ List.replicate (w - cell.length) ' '

/-- A data row: `|`, then per column a space, the padded cell (or
`colw[c]` spaces when the row has no cell there), a space and a `|`. -/
def dataLine (rows : List (List (List Char))) (cols : Nat)
    (r : List (List Char)) : List Char :=
  '|' :: ((List.range cols).map (fun c =>
    ' ' :: (match r.get? c with
            | some cell => padCell cell (colWidth rows c)
            | none => List.replicate (colWidth rows c) ' ') ++ [' ', '|'])).flatten

/-- Second pass: border row first, then each data row followed by a
redrawn border row.  A table with no cell-bearing rows draws nothing
(`if(rows == 0) return`). -/
def render_table_node (table : Node) : List (List Char) :=
  let rows := tableRows table
  if rows.isEmpty then []
  else
    let cols := tableCols rows
    borderLine rows cols ::
      (rows.map (fun r => [dataLine rows cols r, borderLine rows cols])).flatten

/-- A concrete parsed table —
`<table><tr><th>A</th><th>BB</th></tr><tr><td>1</td><td>22</td></tr></table>`. -/
def tableDemo : Node :=
  Node.mk .TABLE [] []
    [Node.mk .TR [] [] [Node.mk .TH [] [] [Node.mk .TEXT "A".data [] []],
                        Node.mk .TH [] [] [Node.mk .TEXT "BB".data [] []]],
     Node.mk .TR [] [] [Node.mk .TD [] [] [Node.mk .TEXT "1".data [] []],
                        Node.mk .TD [] [] [Node.mk .TEXT "22".data [] []]]]

/-! ## Viewport controller (`main`, lines 950–957)

`top_pos` and `g_pad_cur_y` are C `int`s, modelled as `Int`;
`g_term_h` is the viewport height. -/

structure VPState where
  top : Int
  content : Int
  deriving DecidableEq, Repr

inductive VPCmd where
  | lineUp | lineDown | pageUp | pageDown
  | reload (newContent : Int)
  deriving DecidableEq, Repr

/-- One key dispatch: KEY_UP / KEY_DOWN / KEY_PPAGE / KEY_NPAGE, and
`r` (reload resets `top_pos = 0` and replaces the content height). -/
def vpStep (h : Int) (s : VPState) : VPCmd → VPState
  | .lineUp => if 0 < s.top then { s with top := s.top - 1 } else s
  | .lineDown => if s.top + h < s.content then { s with top := s.top + 1 } else s
  | .pageDown =>
    let t1 := s.top + (h - 2)
    let t2 := if s.content < t1 + h then s.content - h else t1
    { s with top := if t2 < 0 then 0 else t2 }
  | .pageUp =>
    let t1 := s.top - (h - 2)
    { s with top := if t1 < 0 then 0 else t1 }
  | .reload c2 => { top := 0, content := c2 }

/-- The documented scroll-offset interval. -/
def vpInv (h : Int) (s : VPState) : Prop :=
  0 ≤ s.top ∧ s.top ≤ max 0 (s.content - h)

/-- A command sequence from the state right after a render
(`top_pos = 0`, content height `c0`). -/
def vpRun (h c0 : Int) (cmds : List VPCmd) : VPState :=
  cmds.foldl (vpStep h) { top := 0, content := c0 }

/-! ## Load / reload (`main`, lines 902–937) -/

inductive FetchResult where
  | ok (body : List Char)
  | failed
  deriving Repr

inductive LoadOutcome where
  | exitFailure
  | loaded (root : Node)

/-- The `need_load` block: the previous tree is freed first
(lines 904–905), then the fetch runs; a failed fetch ends the whole
session (`endwin`; `return 1`) whether or not a previous view existed,
and a successful fetch feeds sanitize → strip → parse. -/
def loadStep (prev : Option Node) (fetch : FetchResult) : LoadOutcome :=
  match prev, fetch with
  | _, .failed => .exitFailure
  | _, .ok raw =>
    .loaded (parse_html_tree (strip_script_style_meta (sanitize_ascii raw)))

lemma collapseAux_wsOnlySpace (l : List Char) :
    ∀ b, wsOnlySpace (collapseAux l b) = true := by
  induction l with
  | nil => intro b; rfl
  | cons c cs ih =>
    intro b
    by_cases h1 : c = '\r'
    · simpa [collapseAux, h1] using ih b
    · by_cases h2 : isSpaceC c = true
      · cases b with
        | true => simpa [collapseAux, h1, h2] using ih true
        | false =>
          have := ih true
          simp only [collapseAux, if_neg h1, if_pos h2, if_neg (Bool.false_ne_true)]
          simpa [wsOnlySpace, isSpaceC] using this
      · have := ih false
        simp only [collapseAux, if_neg h1, if_neg h2]
        simp only [wsOnlySpace, List.all_cons, Bool.and_eq_true] at this ⊢
        exact ⟨by simp [h2], this⟩

lemma collapseAux_noTwo (l : List Char) :
    ∀ b, noTwoSpaces (collapseAux l b) = true ∧
      (b = true → headNotSpace (collapseAux l b) = true) := by
  induction l with
  | nil => intro b; exact ⟨rfl, fun _ => rfl⟩
  | cons c cs ih =>
    intro b
    by_cases h1 : c = '\r'
    · simpa [collapseAux, h1] using ih b
    · by_cases h2 : isSpaceC c = true
      · cases b with
        | true => simpa [collapseAux, h1, h2] using ih true
        | false =>
          simp only [collapseAux, if_neg h1, if_pos h2, if_neg (Bool.false_ne_true)]
          refine ⟨?_, fun h => by cases h⟩
          have hhd := (ih true).2 rfl
          have htl := (ih true).1
          cases hc : collapseAux cs true with
          | nil => rfl
          | cons d ds =>
            rw [hc] at hhd htl
            simp only [headNotSpace] at hhd
            simp only [noTwoSpaces, Bool.and_eq_true]
            constructor
            · simp only [Bool.not_eq_true', Bool.and_eq_false_iff]
              right
              simpa using hhd
            · exact htl
      · simp only [collapseAux, if_neg h1, if_neg h2]
        have hcs : ¬ (c = ' ') := fun h => h2 (by simp [h, isSpaceC])
        refine ⟨?_, fun _ => by simpa [headNotSpace] using hcs⟩
        have htl := (ih false).1
        cases hc : collapseAux cs false with
        | nil => rfl
        | cons d ds =>
          rw [hc] at htl
          simp only [noTwoSpaces, Bool.and_eq_true] at htl ⊢
          refine ⟨by simp [hcs], htl⟩

lemma noTwoSpaces_prefix (a b : List Char)
    (h : noTwoSpaces (a ++ b) = true) : noTwoSpaces a = true := by
  induction a with
  | nil => rfl
  | cons c cs ih =>
    cases cs with
    | nil => rfl
    | cons d ds =>
      simp only [List.cons_append, noTwoSpaces, Bool.and_eq_true] at h ⊢
      exact ⟨h.1, ih h.2⟩

lemma dropWhile_head_not (l : List Char) :
    headNotSpace (l.dropWhile (fun c => c = ' ')) = true ∨
      (l.dropWhile (fun c => c = ' ')) = [] := by
  induction l with
  | nil => right; rfl
  | cons c cs ih =>
    by_cases h : c = ' '
    · simpa [List.dropWhile, h] using ih
    · left; simp [List.dropWhile, h, headNotSpace]

lemma dropTrailingSpaces_prefix (l : List Char) :
    ∃ t, l = dropTrailingSpaces l ++ t := by
  refine ⟨(l.reverse.takeWhile (fun c => c = ' ')).reverse, ?_⟩
  have h := List.takeWhile_append_dropWhile (p := fun c => c = ' ')
    (l := l.reverse)
  calc l = l.reverse.reverse := (List.reverse_reverse l).symm
    _ = (l.reverse.takeWhile (fun c => c = ' ') ++
          l.reverse.dropWhile (fun c => c = ' ')).reverse := by rw [h]
    _ = _ := by
      rw [List.reverse_append]; rfl

lemma dropTrailingSpaces_wsOnly (l : List Char)
    (h : wsOnlySpace l = true) : wsOnlySpace (dropTrailingSpaces l) = true := by
  obtain ⟨t, ht⟩ := dropTrailingSpaces_prefix l
  rw [ht] at h
  simp only [wsOnlySpace, List.all_append, Bool.and_eq_true] at h
  exact h.1

lemma dropTrailingSpaces_noTwo (l : List Char)
    (h : noTwoSpaces l = true) : noTwoSpaces (dropTrailingSpaces l) = true := by
  obtain ⟨t, ht⟩ := dropTrailingSpaces_prefix l
  rw [ht] at h
  exact noTwoSpaces_prefix _ _ h

/-- After stripping, the result has no trailing space. -/
lemma dropTrailingSpaces_lastNot (l : List Char) :
    headNotSpace (dropTrailingSpaces l).reverse = true := by
  unfold dropTrailingSpaces
  rw [List.reverse_reverse]
  rcases dropWhile_head_not l.reverse with h | h
  · exact h
  · rw [h]; rfl

lemma dropTrailingSpaces_of_lastNot (l : List Char)
    (h : headNotSpace l.reverse = true) : dropTrailingSpaces l = l := by
  unfold dropTrailingSpaces
  cases hr : l.reverse with
  | nil =>
    have hl : l = [] := by
      have := congrArg List.reverse hr
      simpa using this
    simp [hl]
  | cons c cs =>
    rw [hr] at h
    simp only [headNotSpace, Bool.not_eq_true'] at h
    rw [List.dropWhile_cons]
    simp only [h]
    have hl : (c :: cs).reverse = l := by
      have := congrArg List.reverse hr
      simpa using this.symm
    simp [hl]

/-- On a string whose whitespace is already collapsed, the collapsing
loop is the identity. -/
lemma collapseAux_fixed (l : List Char) :
    ∀ b : Bool, wsOnlySpace l = true → noTwoSpaces l = true →
      (b = true → headNotSpace l = true) → collapseAux l b = l := by
  induction l with
  | nil => intro b _ _ _; rfl
  | cons c cs ih =>
    intro b h1 h2 h3
    simp only [wsOnlySpace, List.all_cons, Bool.and_eq_true] at h1
    have hcr : ¬ (c = '\r') := by
      intro h; subst h
      exact absurd h1.1 (by decide)
    by_cases hsp : isSpaceC c = true
    · have hce : c = ' ' := by
        have := h1.1
        simp only [hsp, Bool.not_true, Bool.false_or] at this
        simpa using this
      have hb : b = false := by
        cases b with
        | false => rfl
        | true =>
          have := h3 rfl
          rw [hce] at this
          simp [headNotSpace] at this
      subst hb
      simp only [collapseAux, if_neg hcr, if_pos hsp,
        if_neg (Bool.false_ne_true)]
      rw [hce]
      congr 1
      apply ih true
      · exact h1.2
      · cases cs with
        | nil => rfl
        | cons d ds =>
          simp only [noTwoSpaces, Bool.and_eq_true] at h2
          exact h2.2
      · intro _
        cases cs with
        | nil => rfl
        | cons d ds =>
          rw [hce] at h2
          simp only [noTwoSpaces, Bool.and_eq_true] at h2
          have := h2.1
          simp only [headNotSpace]
          simp only [Bool.not_eq_true', Bool.and_eq_false_iff] at this
          rcases this with h | h
          · simp at h
          · simp [h]
    · simp only [collapseAux, if_neg hcr, if_neg hsp]
      congr 1
      apply ih false
      · exact h1.2
      · cases cs with
        | nil => rfl
        | cons d ds =>
          simp only [noTwoSpaces, Bool.and_eq_true] at h2
          exact h2.2
      · intro h; cases h

/-- C8: outside Preformatted/Code, the whitespace-collapsing function
replaces each maximal whitespace run by exactly one space (every
whitespace character of the output is `' '` and no two spaces are
adjacent), and it is idempotent: `collapse (collapse s) = collapse s`
for every string `s`. -/
theorem collapse_idempotent_and_single_spaces (s : List Char) :
    wsOnlySpace (collapseWS s) = true ∧ noTwoSpaces (collapseWS s) = true ∧
      collapseWS (collapseWS s) = collapseWS s := by
  refine ⟨dropTrailingSpaces_wsOnly _ (collapseAux_wsOnlySpace s false),
    dropTrailingSpaces_noTwo _ ((collapseAux_noTwo s false).1), ?_⟩
  have h1 := dropTrailingSpaces_wsOnly _ (collapseAux_wsOnlySpace s false)
  have h2 := dropTrailingSpaces_noTwo _ ((collapseAux_noTwo s false).1)
  simp only [collapseWS]
  rw [collapseAux_fixed _ false h1 h2 (fun h => absurd h (by decide))]
  exact dropTrailingSpaces_of_lastNot _ (dropTrailingSpaces_lastNot _)

/-- C3 (the code contradicts the claim): on input `"<!-- >"` — an
unterminated comment with a later `'>'` — the loop body of
`parse_html_tree` returns the state unchanged (`pos` is advanced only
when `-->` is found, lines 307–313), so iterating it any number of
times never reaches the loop exit: the parser loops forever instead of
stopping and returning the tree built so far. -/
theorem unterminated_comment_never_terminates :
    ∀ n : Nat, stepIter "<!-- >".data n ⟨0, [rootFrame]⟩ =
      some ⟨0, [rootFrame]⟩ := by
  have h1 : parseStep "<!-- >".data ⟨0, [rootFrame]⟩ =
      some ⟨0, [rootFrame]⟩ := by rfl
  intro n
  induction n with
  | zero => rfl
  | succ n ih =>
    simp only [stepIter]
    rw [h1]
    exact ih

/-- C5 (the code contradicts the claim): stripping
`"<script>x</script>y"` yields `">y"`, not `"y"`: after locating the
closer the scanner resumes at `end + 8` (`i = (end - src) + 8 - 1;
continue;`, line 270), which is the `'>'` of the nine-character
`"</script>"`, so the closer's own `'>'` is copied to the output
instead of being removed "through the matching `</script>`
inclusive". -/
theorem strip_script_keeps_closer_gt :
    strip_script_style_meta "<script>x</script>y".data = ">y".data := by rfl

/-- C6 (counterexample): on `"<p"` — an open `'<'` with no following
`'>'` — the Tree Builder does not signal any syntax failure: the scan
`break`s (lines 300–302) and the unchanged root node is returned.  The
C function returns `Node*` unconditionally (there is no failure
channel at all), so the claimed "syntax failure on unterminated tag
delimiters" does not exist. -/
theorem unterminated_delimiter_yields_plain_root :
    parse_html_tree "<p".data = Node.mk .DIV [] [] [] := by rfl

/-- C6 (amended): an unterminated tag delimiter — `html[pos] = '<'`
with no `'>'` anywhere after it — makes the scan loop exit immediately
(`if(gt >= len) break;`), silently truncating the input; the tree
built so far is returned and no failure is signaled. -/
theorem unterminated_delimiter_silent_stop (html : List Char) (s : PState)
    (h1 : s.pos < html.length) (h2 : charAt html s.pos = '<')
    (h3 : findIdxFrom (fun c => c = '>') html (s.pos + 1) = none) :
    parseStep html s = none := by
  unfold parseStep
  rw [if_pos h1, if_pos h2, h3]

/-- Witness for `unterminated_delimiter_silent_stop` at `"<p"`. -/
theorem unterminated_delimiter_silent_stop_witness :
    charAt "<p".data 0 = '<' ∧ parseStep "<p".data ⟨0, [rootFrame]⟩ = none :=
  ⟨by decide,
    unterminated_delimiter_silent_stop "<p".data ⟨0, [rootFrame]⟩
      (by decide) (by decide) (by decide)⟩

/-- C9 (amended): a fetch failure ends the session identically on
initial load and on reload — the `need_load` block frees the previous
tree first and then exits the process on a NULL fetch (lines 904–916);
there is no retry, and a successful fetch feeds exactly one
sanitize → strip → parse pipeline (no partial tree is held). -/
theorem fetch_failure_always_ends_session :
    (∀ prev : Option Node, loadStep prev .failed = .exitFailure) ∧
    (∀ (prev : Option Node) (raw : List Char), loadStep prev (.ok raw) =
      .loaded (parse_html_tree (strip_script_style_meta (sanitize_ascii raw)))) :=
  ⟨fun _ => rfl, fun _ _ => rfl⟩

/-- C9 (counterexample): a fetch failure on reload — a previous view
exists — still ends the whole session with the failure exit, rather
than being passed back to let the caller keep the previous view (which
was already freed before the fetch). -/
theorem reload_fetch_failure_exits :
    loadStep (some (Node.mk .DIV [] [] [])) .failed = .exitFailure := rfl

lemma vpStep_preserves (h : Int) (s : VPState) (c : VPCmd)
    (hh : 2 ≤ h) (hs : vpInv h s) : vpInv h (vpStep h s c) := by
  simp only [vpInv, le_max_iff] at hs ⊢
  cases c <;> simp only [vpStep] <;> (try split_ifs) <;> (try simp_all) <;> omega

/-- C7 (amended): provided the viewport height is at least 2, every
command sequence after a render keeps the scroll offset in
`[0, max 0 (contentHeight − viewportHeight)]`.  (With height 1 the
page-up step `top -= h - 2` moves the offset up by one with only a
lower clamp, so the upper bound can be exceeded — see the
counterexample.) -/
theorem scroll_offset_in_range (h c0 : Int) (cmds : List VPCmd)
    (hh : 2 ≤ h) : vpInv h (vpRun h c0 cmds) := by
  suffices H : ∀ s : VPState, vpInv h s → vpInv h (cmds.foldl (vpStep h) s) by
    exact H _ ⟨le_refl 0, le_max_left 0 _⟩
  induction cmds with
  | nil => intro s hs; exact hs
  | cons c cs ih => intro s hs; exact ih _ (vpStep_preserves h s c hh hs)

/-- Witness for `scroll_offset_in_range`. -/
theorem scroll_offset_in_range_witness :
    (2 : Int) ≤ 5 ∧ vpInv 5 (vpRun 5 20 [.lineDown, .pageDown, .pageUp]) :=
  ⟨by decide, scroll_offset_in_range 5 20 [.lineDown, .pageDown, .pageUp] (by decide)⟩

/-- C7 (counterexample): with viewport height 1 and content height 3,
three page-ups drive the offset to 3, outside
`[0, max 0 (3 − 1)] = [0, 2]` — KEY_PPAGE adds `-(h-2) = 1` and clamps
only at 0 (line 956), so the claimed interval is escaped. -/
theorem pageup_escapes_range_at_height_one :
    ¬ vpInv 1 (vpRun 1 3 [.pageUp, .pageUp, .pageUp]) := by
  simp only [vpInv]
  decide

/-- C10: every unrecognized opening tag name falls through the
dispatch chain to the transparent `NODE_DIV` fallback and is pushed as
a container (lines 395–401), and `NODE_DIV` accepts only the closing
name `"div"` (line 330) — in particular the element's own closing tag
never pops it, so it stays open until an enclosing recognized element
closes or input ends. -/
theorem unknown_tag_generic_container (tag : List Char)
    (h : recognizedTag tag = false) :
    classify tag = .push .DIV true ∧ acceptsClose .DIV tag = false := by
  have h2 : decide (tag ∈ recognizedNames) = false ∧ headerOpen tag = false := by
    simpa only [recognizedTag, Bool.or_eq_false_iff] using h
  have hmem : ¬ (tag ∈ recognizedNames) := of_decide_eq_false h2.1
  have hho : headerOpen tag = false := h2.2
  have hne : ∀ x ∈ recognizedNames, ¬ (tag = x) :=
    fun x hx he => hmem (he.symm ▸ hx)
  constructor
  · unfold classify
    rw [if_neg (hne _ (by decide)), if_neg (hne _ (by decide)),
      if_neg (hne _ (by decide)), if_neg (hne _ (by decide)),
      if_neg (show ¬ (headerOpen tag = true) by simp [hho]),
      if_neg (hne _ (by decide)), if_neg (hne _ (by decide)),
      if_neg (hne _ (by decide)),
      if_neg (not_or.mpr ⟨hne _ (by decide), hne _ (by decide)⟩),
      if_neg (hne _ (by decide)), if_neg (hne _ (by decide)),
      if_neg (hne _ (by decide)), if_neg (hne _ (by decide)),
      if_neg (hne _ (by decide)), if_neg (hne _ (by decide)),
      if_neg (hne _ (by decide)), if_neg (hne _ (by decide)),
      if_neg (hne _ (by decide)), if_neg (hne _ (by decide)),
      if_neg (hne _ (by decide)), if_neg (hne _ (by decide)),
      if_neg (hne _ (by decide)), if_neg (hne _ (by decide)),
      if_neg (hne _ (by decide)), if_neg (hne _ (by decide)),
      if_neg (hne _ (by decide)), if_neg (hne _ (by decide)),
      if_neg (hne _ (by decide)), if_neg (hne _ (by decide)),
      if_neg (hne _ (by decide)), if_neg (hne _ (by decide)),
      if_neg (hne _ (by decide)),
      if_neg (not_or.mpr ⟨hne _ (by decide), hne _ (by decide)⟩),
      if_neg (not_or.mpr ⟨hne _ (by decide), not_or.mpr ⟨hne _ (by decide),
        not_or.mpr ⟨hne _ (by decide), not_or.mpr ⟨hne _ (by decide),
          hne _ (by decide)⟩⟩⟩⟩),
      if_neg (hne _ (by decide)),
      if_neg (not_or.mpr ⟨hne _ (by decide), not_or.mpr ⟨hne _ (by decide),
        hne _ (by decide)⟩⟩),
      if_neg (hne _ (by decide)), if_neg (hne _ (by decide))]
  · have hd : ¬ (tag = "div".data) := hne _ (by decide)
    simp [acceptsClose, hd]

/-- Witness for `unknown_tag_generic_container` at `"span"`. -/
theorem unknown_tag_generic_container_witness :
    recognizedTag "span".data = false ∧
      classify "span".data = .push .DIV true ∧
      acceptsClose .DIV "span".data = false :=
  ⟨by decide, unknown_tag_generic_container "span".data (by decide)⟩

lemma acceptsClose_span_false (t : NodeType) :
    acceptsClose t "span".data = false := by
  cases t <;> rfl

lemma findAcceptIdx_none (tag : List Char) :
    ∀ l : List Frame,
      (∀ j, j + 1 < l.length →
        acceptsClose ((l.getD j rootFrame).type) tag = false) →
      findAcceptIdx tag l = none := by
  intro l
  induction l with
  | nil => intro _; rfl
  | cons f rest ih =>
    intro h
    cases rest with
    | nil => rfl
    | cons g rs =>
      have h0 : acceptsClose f.type tag = false := by
        have := h 0 (by simp)
        simpa using this
      simp only [findAcceptIdx, h0, Bool.false_eq_true, if_false]
      rw [ih ?htail]
      case htail =>
        intro j hj
        have := h (j + 1) (by simp at hj ⊢; omega)
        simpa [List.getD_cons_succ] using this
      rfl

lemma findAcceptIdx_some (tag : List Char) :
    ∀ (l : List Frame) (k : Nat), findAcceptIdx tag l = some k →
      k + 1 < l.length
      ∧ acceptsClose ((l.getD k rootFrame).type) tag = true
      ∧ ∀ j < k, acceptsClose ((l.getD j rootFrame).type) tag = false := by
  intro l
  induction l with
  | nil => intro k h; cases h
  | cons f rest ih =>
    intro k h
    cases rest with
    | nil => cases h
    | cons g rs =>
      by_cases hf : acceptsClose f.type tag = true
      · simp only [findAcceptIdx, hf, if_true] at h
        obtain rfl : (0 : Nat) = k := by simpa using h
        refine ⟨by simp, by simpa using hf, fun j hj => absurd hj (Nat.not_lt_zero j)⟩
      · simp only [findAcceptIdx, hf, Bool.false_eq_true, if_false] at h
        cases hm : findAcceptIdx tag (g :: rs) with
        | none => rw [hm] at h; cases h
        | some k2 =>
          rw [hm] at h
          obtain rfl : k2 + 1 = k := by simpa using h
          obtain ⟨hlt, hacc, hbelow⟩ := ih k2 hm
          refine ⟨by simp at hlt ⊢; omega, by simpa [List.getD_cons_succ] using hacc, ?_⟩
          intro j hj
          cases j with
          | zero => simpa using hf
          | succ j2 =>
            have := hbelow j2 (by omega)
            simpa [List.getD_cons_succ] using this

lemma popFrames_spec :
    ∀ (n : Nat) (stack : List Frame), n < stack.length →
      ∃ f : Frame, popFrames n stack = f :: stack.drop (n + 1)
        ∧ f.type = (stack.getD n rootFrame).type
        ∧ f.attrs = (stack.getD n rootFrame).attrs
        ∧ ∃ ext, f.children = (stack.getD n rootFrame).children ++ ext := by
  intro n
  induction n with
  | zero =>
    intro stack h
    cases stack with
    | nil => simp at h
    | cons f rest =>
      exact ⟨f, by simp [popFrames], rfl, rfl, [], by simp⟩
  | succ n ih =>
    intro stack h
    cases stack with
    | nil => simp at h
    | cons f rest =>
      cases rest with
      | nil => simp at h
      | cons g rs =>
        have h2 : n <
            (({ g with children := g.children ++ [finalizeFrame f] } : Frame)
              :: rs).length := by
          simp at h ⊢; omega
        obtain ⟨f2, he, ht, ha, ext, hc⟩ := ih _ h2
        have hstep : popFrames (n + 1) (f :: g :: rs) =
            popFrames n
              (({ g with children := g.children ++ [finalizeFrame f] } : Frame)
                :: rs) := rfl
        cases n with
        | zero =>
          refine ⟨f2, ?_, ?_, ?_, ?_⟩
          · rw [hstep, he]
            rfl
          · simpa using ht
          · simpa using ha
          · refine ⟨[finalizeFrame f] ++ ext, ?_⟩
            simp only [List.getD_cons_succ, List.getD_cons_zero] at hc ⊢
            simpa [List.append_assoc] using hc
        | succ m =>
          refine ⟨f2, ?_, ?_, ?_, ?_⟩
          · rw [hstep, he]
            rfl
          · simpa [List.getD_cons_succ] using ht
          · simpa [List.getD_cons_succ] using ha
          · refine ⟨ext, ?_⟩
            simpa [List.getD_cons_succ] using hc

/-- C1: on a closing tag, the open-element stack is searched from the
top toward the root for the nearest node whose type accepts the
closing name; if one exists at depth `k` the stack is popped down to
and including it — the new stack is the frame below it (its type,
attributes and previously attached children intact) over the untouched
remainder — and if no compatible node exists the stack is unchanged;
in particular no node type accepts `"span"`, so a `</span>` never pops
anything. -/
theorem closing_tag_pops_to_nearest (stack : List Frame) (tag : List Char) :
    ((∀ j, j + 1 < stack.length →
        acceptsClose ((stack.getD j rootFrame).type) tag = false) →
      closeTag stack tag = stack)
    ∧ (∀ k, findAcceptIdx tag stack = some k →
        acceptsClose ((stack.getD k rootFrame).type) tag = true
        ∧ (∀ j < k, acceptsClose ((stack.getD j rootFrame).type) tag = false)
        ∧ (closeTag stack tag).length = stack.length - (k + 1)
        ∧ ∃ f, closeTag stack tag = f :: stack.drop (k + 2)
            ∧ f.type = (stack.getD (k + 1) rootFrame).type
            ∧ f.attrs = (stack.getD (k + 1) rootFrame).attrs
            ∧ ∃ ext, f.children = (stack.getD (k + 1) rootFrame).children ++ ext)
    ∧ closeTag stack "span".data = stack := by
  refine ⟨?_, ?_, ?_⟩
  · intro h
    unfold closeTag
    rw [findAcceptIdx_none tag stack h]
  · intro k hk
    obtain ⟨hlt, hacc, hbelow⟩ := findAcceptIdx_some tag stack k hk
    obtain ⟨f, he, ht, ha, ext, hc⟩ := popFrames_spec (k + 1) stack hlt
    have hclose : closeTag stack tag = f :: stack.drop (k + 2) := by
      unfold closeTag
      rw [hk]
      exact he
    refine ⟨hacc, hbelow, ?_, f, hclose, ht, ha, ext, hc⟩
    rw [hclose]
    simp [List.length_drop]
    omega
  · unfold closeTag
    rw [findAcceptIdx_none _ _ (fun j _ => acceptsClose_span_false _)]

/-- Witness for `closing_tag_pops_to_nearest`: closing `</p>` over the
stack `[BOLD, PARAGRAPH, root]` pops both the bold and the paragraph
frame, leaving only the root. -/
theorem closing_tag_pops_to_nearest_witness :
    findAcceptIdx "p".data
        [⟨.BOLD, [], []⟩, ⟨.PARAGRAPH, [], []⟩, rootFrame] = some 1
    ∧ (closeTag [⟨.BOLD, [], []⟩, ⟨.PARAGRAPH, [], []⟩, rootFrame]
        "p".data).length = 1 :=
  ⟨by decide,
    ((closing_tag_pops_to_nearest
        [⟨.BOLD, [], []⟩, ⟨.PARAGRAPH, [], []⟩, rootFrame]
        "p".data).2.1 1 (by decide)).2.2.1⟩

lemma flatten_pairs_length {α β : Type} (f g : β → α) (l : List β) :
    ((l.map (fun r => [f r, g r])).flatten).length = 2 * l.length := by
  induction l with
  | nil => rfl
  | cons a as ih =>
    simp only [List.map_cons, List.flatten_cons, List.length_append,
      List.length_cons, List.length_nil, ih]
    omega

lemma flatten_pairs_get {α β : Type} (f g : β → α) (l : List β) :
    ∀ i, i < l.length →
      ((l.map (fun r => [f r, g r])).flatten)[2 * i]? = (l[i]?).map f
      ∧ ((l.map (fun r => [f r, g r])).flatten)[2 * i + 1]? = (l[i]?).map g := by
  induction l with
  | nil => intro i h; simp at h
  | cons a as ih =>
    intro i h
    cases i with
    | zero => simp
    | succ j =>
      have hj : j < as.length := by simpa using h
      obtain ⟨ih1, ih2⟩ := ih j hj
      have e1 : 2 * (j + 1) = 2 * j + 1 + 1 := by ring
      have e2 : 2 * (j + 1) + 1 = 2 * j + 1 + 1 + 1 := by ring
      constructor
      · rw [e1]
        simpa [List.getElem?_cons_succ] using ih1
      · rw [e2]
        simpa [List.getElem?_cons_succ] using ih2

lemma colWidth_foldl (c : Nat) :
    ∀ (rows : List (List (List Char))) (a : Nat),
      rows.foldl (fun mw r =>
        match r.get? c with
        | some cell => max mw cell.length
        | none => mw) a
      = max a (((rows.filterMap (fun r => r.get? c)).map List.length).foldr max 0) := by
  intro rows
  induction rows with
  | nil => intro a; simp
  | cons r rest ih =>
    intro a
    rw [List.foldl_cons]
    cases hr : r.get? c with
    | none => simp only [hr, List.filterMap_cons, ih]
    | some cell =>
      simp only [hr, List.filterMap_cons, ih, List.map_cons, List.foldr_cons]
      rw [max_assoc]

lemma segment_count (rows : List (List (List Char))) (r : List (List Char))
    (hbar : ∀ cell ∈ r, '|' ∉ cell) (c : Nat) :
    (' ' :: (match r.get? c with
             | some cell => padCell cell (colWidth rows c)
             | none => List.replicate (colWidth rows c) ' ') ++
      [' ', '|']).count '|' = 1 := by
  cases hr : r.get? c with
  | none => simp [List.count_append, List.count_cons, List.count_replicate]
  | some cell =>
    have hmem : cell ∈ r := List.get?_mem hr
    have hz : cell.count '|' = 0 := List.count_eq_zero.mpr (hbar cell hmem)
    simp [padCell, List.count_append, List.count_cons, List.count_replicate, hz]

lemma dataLine_count (rows : List (List (List Char))) (cols : Nat)
    (r : List (List Char)) (hbar : ∀ cell ∈ r, '|' ∉ cell) :
    (dataLine rows cols r).count '|' = cols + 1 := by
  unfold dataLine
  rw [List.count_cons]
  simp only [List.count_flatten, List.map_map]
  have hcongr : (List.range cols).map
      ((fun l => l.count '|') ∘ (fun c =>
        ' ' :: (match r.get? c with
                | some cell => padCell cell (colWidth rows c)
                | none => List.replicate (colWidth rows c) ' ') ++ [' ', '|']))
      = (List.range cols).map (fun _ => 1) := by
    apply List.map_congr_left
    intro c _
    exact segment_count rows r hbar c
  rw [hcongr]
  simp [List.map_const']

/-- C4: for a parsed table with at least one cell-bearing row and no
`'|'` inside any cell text, the computed width of column `c` is
`max 1 (max over rows of the cell text length)` (the rendered cell
then adds the 2 padding spaces); the output is a border row first and
a border row after every data row (`2·rows + 1` lines, borders at even
positions, data rows at odd positions); and every rendered data row
contains exactly `cols + 1` vertical `'|'` border characters, each
cell left-started and space-padded to the column width (`%-*s`). -/
theorem table_layout (t : Node) (hrows : tableRows t ≠ [])
    (hbar : ∀ r ∈ tableRows t, ∀ cell ∈ r, '|' ∉ cell) :
    (∀ c, colWidth (tableRows t) c =
      max 1 ((((tableRows t).filterMap (fun r => r.get? c)).map
        List.length).foldr max 0))
    ∧ (render_table_node t).length = 2 * (tableRows t).length + 1
    ∧ (∀ i, i ≤ (tableRows t).length →
        (render_table_node t)[2 * i]? =
          some (borderLine (tableRows t) (tableCols (tableRows t))))
    ∧ (∀ i, i < (tableRows t).length →
        (render_table_node t)[2 * i + 1]? =
          ((tableRows t)[i]?).map
            (dataLine (tableRows t) (tableCols (tableRows t))))
    ∧ (∀ r ∈ tableRows t,
        (dataLine (tableRows t) (tableCols (tableRows t)) r).count '|' =
          tableCols (tableRows t) + 1) := by
  have hout : render_table_node t =
      borderLine (tableRows t) (tableCols (tableRows t)) ::
        ((tableRows t).map (fun r =>
          [dataLine (tableRows t) (tableCols (tableRows t)) r,
           borderLine (tableRows t) (tableCols (tableRows t))])).flatten := by
    unfold render_table_node
    rw [if_neg (by simp [List.isEmpty_iff, hrows])]
  refine ⟨fun c => colWidth_foldl c (tableRows t) 1, ?_, ?_, ?_, ?_⟩
  · rw [hout]
    simp only [List.length_cons, flatten_pairs_length]
  · intro i hi
    cases i with
    | zero => rw [hout]; simp
    | succ j =>
      have hj : j < (tableRows t).length := by omega
      have e1 : 2 * (j + 1) = 2 * j + 1 + 1 := by ring
      rw [hout, e1, List.getElem?_cons_succ]
      have := (flatten_pairs_get
        (dataLine (tableRows t) (tableCols (tableRows t)))
        (fun _ => borderLine (tableRows t) (tableCols (tableRows t)))
        (tableRows t) j hj).2
      rw [this, List.getElem?_eq_getElem hj]
      rfl
  · intro i hi
    rw [hout, List.getElem?_cons_succ]
    exact (flatten_pairs_get
      (dataLine (tableRows t) (tableCols (tableRows t)))
      (fun _ => borderLine (tableRows t) (tableCols (tableRows t)))
      (tableRows t) i hi).1
  · intro r hr
    exact dataLine_count _ _ r (hbar r hr)

/-- Witness for `table_layout` on `tableDemo` (column widths 1 and 2,
five output rows). -/
theorem table_layout_witness :
    tableRows tableDemo ≠ []
    ∧ (render_table_node tableDemo).length = 2 * (tableRows tableDemo).length + 1 :=
  ⟨by decide, (table_layout tableDemo (by decide) (by decide)).2.1⟩

lemma rowExtent_le_iff (row : List (Nat × List Char)) (m : Nat) :
    rowExtent row ≤ m ↔ ∀ p ∈ row, p.1 + p.2.length ≤ m := by
  induction row with
  | nil => simp [rowExtent]
  | cons p ps ih =>
    simp only [rowExtent, List.foldr_cons] at ih ⊢
    simp [max_le_iff, ih]

lemma wrapFlushWord_ok (w indent : Nat) (st : WrapSt)
    (hA : ∀ row ∈ st.rows, rowExtent row ≤ w)
    (hB : ∀ p ∈ st.cur, p.1 + p.2.length ≤ st.curx)
    (hC : st.cur ≠ [] → st.curx ≤ w)
    (hw : st.word ≠ [] → indent + st.word.length < w) :
    (∀ row ∈ (wrapFlushWord w indent st).rows, rowExtent row ≤ w)
    ∧ (∀ p ∈ (wrapFlushWord w indent st).cur,
        p.1 + p.2.length ≤ (wrapFlushWord w indent st).curx)
    ∧ ((wrapFlushWord w indent st).cur ≠ [] →
        (wrapFlushWord w indent st).curx ≤ w)
    ∧ (wrapFlushWord w indent st).word = [] := by
  unfold wrapFlushWord
  by_cases h0 : st.word.length = 0
  · rw [if_pos h0]
    exact ⟨hA, hB, hC, List.length_eq_zero.mp h0⟩
  · rw [if_neg h0]
    have hne : st.word ≠ [] := fun he => h0 (by simp [he])
    have hwlt := hw hne
    by_cases hg : w ≤ st.curx + st.word.length
    · simp only [if_pos hg]
      refine ⟨?_, ?_, ?_, by trivial⟩
      · intro row hrow
        rcases List.mem_append.mp hrow with h | h
        · exact hA row h
        · obtain rfl := List.mem_singleton.mp h
          rw [rowExtent_le_iff]
          intro p hp
          exact le_trans (hB p hp) (hC (List.ne_nil_of_mem hp))
      · intro p hp
        simp only [List.nil_append, List.mem_singleton] at hp
        subst hp
        simp
      · intro _
        show indent + st.word.length ≤ w
        omega
    · simp only [if_neg hg]
      refine ⟨?_, ?_, ?_, by trivial⟩
      · exact hA
      · intro p hp
        rcases List.mem_append.mp hp with h | h
        · exact le_trans (hB p h) (by omega)
        · obtain rfl := List.mem_singleton.mp h
          simp
      · intro _
        show st.curx + st.word.length ≤ w
        omega

lemma wrapSpace_ok (w indent : Nat) (st : WrapSt)
    (hA : ∀ row ∈ st.rows, rowExtent row ≤ w)
    (hB : ∀ p ∈ st.cur, p.1 + p.2.length ≤ st.curx)
    (hC : st.cur ≠ [] → st.curx ≤ w) :
    (∀ row ∈ (wrapSpace w indent st).rows, rowExtent row ≤ w)
    ∧ (∀ p ∈ (wrapSpace w indent st).cur,
        p.1 + p.2.length ≤ (wrapSpace w indent st).curx)
    ∧ ((wrapSpace w indent st).cur ≠ [] → (wrapSpace w indent st).curx ≤ w)
    ∧ (wrapSpace w indent st).word = st.word := by
  unfold wrapSpace
  by_cases hg : w ≤ st.curx + 1
  · rw [if_pos hg]
    refine ⟨?_, by simp, fun h => absurd rfl h, rfl⟩
    intro row hrow
    rcases List.mem_append.mp hrow with h | h
    · exact hA row h
    · obtain rfl := List.mem_singleton.mp h
      rw [rowExtent_le_iff]
      intro p hp
      exact le_trans (hB p hp) (hC (List.ne_nil_of_mem hp))
  · rw [if_neg hg]
    refine ⟨hA, ?_, ?_, rfl⟩
    · intro p hp
      rcases List.mem_append.mp hp with h | h
      · exact le_trans (hB p h) (by show st.curx ≤ st.curx + 1; omega)
      · obtain rfl := List.mem_singleton.mp h
        show st.curx + 1 ≤ st.curx + 1
        omega
    · intro _
      show st.curx + 1 ≤ w
      omega

lemma wrap_go (w indent : Nat) :
    ∀ (txt : List Char) (st : WrapSt) (g : Nat),
      (∀ row ∈ st.rows, rowExtent row ≤ w) →
      (∀ p ∈ st.cur, p.1 + p.2.length ≤ st.curx) →
      (st.cur ≠ [] → st.curx ≤ w) →
      st.word.length = min g 1023 →
      (∀ r ∈ wordRuns txt g, indent + min r 1023 < w) →
      ∀ row ∈ (wrapFlushWord w indent (txt.foldl (wrapChar w indent) st)).rows
          ++ [(wrapFlushWord w indent (txt.foldl (wrapChar w indent) st)).cur],
        rowExtent row ≤ w := by
  intro txt
  induction txt with
  | nil =>
    intro st g hA hB hC hlen hruns
    have hw : st.word ≠ [] → indent + st.word.length < w := by
      intro hne
      have hg : g ≠ 0 := by
        intro h0
        rw [h0] at hlen
        simp at hlen
        exact hne hlen
      have hmem : g ∈ wordRuns [] g := by simp [wordRuns, hg]
      have hb := hruns g hmem
      rw [hlen]
      exact hb
    obtain ⟨hA2, hB2, hC2, _⟩ := wrapFlushWord_ok w indent st hA hB hC hw
    simp only [List.foldl_nil]
    intro row hrow
    rcases List.mem_append.mp hrow with h | h
    · exact hA2 row h
    · obtain rfl := List.mem_singleton.mp h
      rw [rowExtent_le_iff]
      intro p hp
      exact le_trans (hB2 p hp) (hC2 (List.ne_nil_of_mem hp))
  | cons ch cs ih =>
    intro st g hA hB hC hlen hruns
    rw [List.foldl_cons]
    by_cases hsp : ch = ' '
    · subst hsp
      have hw : st.word ≠ [] → indent + st.word.length < w := by
        intro hne
        have hg : g ≠ 0 := by
          intro h0
          rw [h0] at hlen
          simp at hlen
          exact hne hlen
        have hmem : g ∈ wordRuns (' ' :: cs) g := by
          simp only [wordRuns, if_pos rfl]
          rw [if_neg hg]
          exact List.mem_append_left _ (by simp)
        have hb := hruns g hmem
        rw [hlen]
        exact hb
      obtain ⟨hA1, hB1, hC1, hW1⟩ := wrapFlushWord_ok w indent st hA hB hC hw
      obtain ⟨hA2, hB2, hC2, hW2⟩ :=
        wrapSpace_ok w indent (wrapFlushWord w indent st) hA1 hB1 hC1
      have hstep : wrapChar w indent st ' ' =
          wrapSpace w indent (wrapFlushWord w indent st) := by
        simp [wrapChar]
      rw [hstep]
      apply ih _ 0 hA2 hB2 hC2
      · rw [hW2, hW1]
        simp
      · intro r hrm
        apply hruns
        simp only [wordRuns, if_pos rfl]
        exact List.mem_append_right _ hrm
    · have hstep : wrapChar w indent st ch =
          { st with word := if st.word.length + 1 < 1024
                            then st.word ++ [ch] else st.word } := by
        simp [wrapChar, hsp]
      rw [hstep]
      refine ih _ (g + 1) ?_ ?_ ?_ ?_ ?_
      · exact hA
      · exact hB
      · exact hC
      · show (if st.word.length + 1 < 1024
              then st.word ++ [ch] else st.word).length = min (g + 1) 1023
        by_cases hcap : st.word.length + 1 < 1024
        · simp only [if_pos hcap, List.length_append, List.length_singleton]
          simp only [Nat.min_def] at hlen ⊢
          split_ifs at hlen ⊢ <;> omega
        · simp only [if_neg hcap]
          simp only [Nat.min_def] at hlen ⊢
          split_ifs at hlen ⊢ <;> omega
      · intro r hrm
        apply hruns
        simp only [wordRuns, if_neg hsp]
        exact hrm

/-- C2 (counterexample): at width 3, indent 0 and text `"abcd"`, the
word-wrap routine places the four-character word on a fresh row at the
indent (`mvwaddnstr` after the wrap, line 476) and that row occupies 4
columns — more than the configured width.  A word at least
`W − indent` long always overflows: the wrap rule moves it to a new
row but never splits it. -/
theorem long_word_exceeds_width :
    ¬ (∀ row ∈ render_wrapped_text 3 0 "abcd".data, rowExtent row ≤ 3) := by
  decide

/-- C2 (amended): provided every `' '`-separated word of the text —
after the 1023-character truncation of the C word buffer — is shorter
than `W − indent`, every row emitted by the word-wrap routine occupies
at most `W` columns: a word whose placement would reach or exceed `W`
is moved to a new row at the indent, and a non-fitting inter-word
space likewise wraps. -/
theorem wrapped_text_within_width (w indent : Nat) (txt : List Char)
    (h : ∀ r ∈ wordRuns txt 0, indent + min r 1023 < w) :
    ∀ row ∈ render_wrapped_text w indent txt, rowExtent row ≤ w := by
  have hmain := wrap_go w indent txt ⟨[], [], indent, []⟩ 0
    (by intro row hrow; simp at hrow)
    (by intro p hp; simp at hp)
    (fun hc => absurd rfl hc)
    (by simp)
    h
  simpa [render_wrapped_text] using hmain

/-- Witness for `wrapped_text_within_width` at width 10, indent 1,
text `"ab cd"`. -/
theorem wrapped_text_within_width_witness :
    (∀ r ∈ wordRuns "ab cd".data 0, 1 + min r 1023 < 10)
    ∧ ∀ row ∈ render_wrapped_text 10 1 "ab cd".data, rowExtent row ≤ 10 :=
  ⟨by decide, wrapped_text_within_width 10 1 "ab cd".data (by decide)⟩

end TermBrowser
